import Mathlib

/-!
Verification of the `memecache` fixed-size cache (src/cache.hpp) and its
eviction policies (src/cache_policy.hpp, src/lru_policy.hpp,
src/fifo_policy.hpp, src/lifo_policy.hpp).

Modelling choices, faithful to the source:

* Keys and values are `Nat` (the C++ code is templated; all claims are
  about the container logic, which never inspects key/value contents
  beyond equality/hashing).
* `std::unordered_map<Key, Value>` is modelled as an association list
  `List (Nat × Nat)` with unique keys.  `find` is `mfind`, `emplace`
  (insert-only-if-absent) is `memplace`, `operator[]` assignment is
  `massign`, `erase` is `merase`, `size` is `List.length`, `clear` is
  `[]`.  Iteration order of the C++ map is unspecified, so only the
  key-multiset of the list is meaningful.
* Each list-backed policy (`LRUCachePolicy`, `FIFOCachePolicy`,
  `LIFOCachePolicy`) keeps a `std::list<Key>` order list plus a
  key→iterator index whose domain always equals the list's contents;
  the index is a constant-time lookup artifact, so the model keeps only
  the order list (`List Nat`, head = front of the C++ list).
* `ReplacementCandidate` throws `std::runtime_error` on an empty policy;
  the model returns `Option Nat`, `none` standing for that error.
* The `on_erase_callback` hook is modelled as an invocation log
  (`hookLog`): each C++ call `on_erase_callback(key, value)` appends
  `(key, value)`.
* `Get` throws `std::range_error` on a miss; the model returns
  `Except CacheError Nat`.
-/

/-- Errors the C++ code signals by throwing: `Get` throws on a missing
key, `ReplacementCandidate` throws on an empty policy. -/
inductive CacheError where
  | keyNotFound
  | emptyPolicy
deriving DecidableEq, Repr

/-- `cache_items_map.find(key)`: value stored for `key` in the
association-list model of `std::unordered_map`. -/
def mfind (k : Nat) : List (Nat × Nat) → Option Nat
  | [] => none
  | (a, v) :: t => if a = k then some v else mfind k t

/-- `cache_items_map.emplace(key, value)`: inserts only when the key is
absent (the C++ `emplace` does not overwrite). -/
def memplace (k v : Nat) (m : List (Nat × Nat)) : List (Nat × Nat) :=
  match mfind k m with
  | some _ => m
  | none => (k, v) :: m

/-- `cache_items_map[key] = value`: overwrite the stored value when the
key is present, append the pair otherwise. -/
def massign (k v : Nat) : List (Nat × Nat) → List (Nat × Nat)
  | [] => [(k, v)]
  | (a, w) :: t => if a = k then (k, v) :: t else (a, w) :: massign k v t

/-- `cache_items_map.erase(it)`: remove the (unique) pair with the given
key. -/
def merase (k : Nat) : List (Nat × Nat) → List (Nat × Nat)
  | [] => []
  | (a, w) :: t => if a = k then t else (a, w) :: merase k t

/-- The list of keys of the map, in storage order. -/
def mkeys (m : List (Nat × Nat)) : List Nat := m.map (·.1)

/-- The last element of a key list: `list.back()` in the C++ policies,
`none` when the list is empty (the "empty policy" throw). -/
def backOf : List Nat → Option Nat
  | [] => none
  | [a] => some a
  | _ :: b :: t => backOf (b :: t)

/-- An eviction policy as the cache consumes it: the four virtual
operations of `ICachePolicy`, plus `pKeys`, the list of keys the policy
currently tracks (the contents of its order list), used to state the
spec's key-set invariant. -/
structure PolicyOps (σ : Type) where
  pInsert : Nat → σ → σ
  pTouch : Nat → σ → σ
  pErase : Nat → σ → σ
  pCandidate : σ → Option Nat
  pKeys : σ → List Nat

/-- `LRUCachePolicy` (src/lru_policy.hpp): state is `lru_queue`, head =
front = most recently used.  `Insert` pushes to the front unless the key
is already tracked; `Touch` splices an existing key to the front;
`Erase` removes the key's node; `ReplacementCandidate` is
`lru_queue.back()`. -/
def LRUPolicyOps : PolicyOps (List Nat) where
  pInsert := fun k l => if k ∈ l then l else k :: l
  pTouch := fun k l => if k ∈ l then k :: l.erase k else l
  pErase := fun k l => l.erase k
  pCandidate := backOf
  pKeys := fun l => l

/-- `FIFOCachePolicy` (src/fifo_policy.hpp): state is `fifo_queue`, head
= front = newest insertion.  `Touch` is a no-op; `ReplacementCandidate`
is `fifo_queue.back()`, the oldest inserted key. -/
def FIFOPolicyOps : PolicyOps (List Nat) where
  pInsert := fun k l => if k ∈ l then l else k :: l
  pTouch := fun _ l => l
  pErase := fun k l => l.erase k
  pCandidate := backOf
  pKeys := fun l => l

/-- `LIFOCachePolicy` (src/lifo_policy.hpp): state is `lifo_stack`, head
= front = newest insertion.  `Touch` is a no-op; `ReplacementCandidate`
is `lifo_stack.front()`, the most recently inserted key. -/
def LIFOPolicyOps : PolicyOps (List Nat) where
  pInsert := fun k l => if k ∈ l then l else k :: l
  pTouch := fun _ l => l
  pErase := fun k l => l.erase k
  pCandidate := fun l => l.head?
  pKeys := fun l => l

/-- The state of a `fixed_sized_cache`: `cache_items_map`,
`cache_policy`, `max_cache_size`, and the log of
`on_erase_callback` invocations. -/
structure CacheState (σ : Type) where
  map : List (Nat × Nat)
  policy : σ
  maxSize : Nat
  hookLog : List (Nat × Nat)
deriving Repr, DecidableEq

/-- A freshly constructed cache: empty map, caller-supplied policy
(default-constructed policies are empty), empty hook log.  The C++
constructor throws when `max_size == 0`; theorems carry `0 < cap`. -/
def cInit {σ : Type} (p0 : σ) (cap : Nat) : CacheState σ :=
  ⟨[], p0, cap, []⟩

/-- Private `Insert(key, value)`: `cache_policy.Insert(key)` then
`cache_items_map.emplace(key, value)`. -/
def cInsert {σ : Type} (P : PolicyOps σ) (k v : Nat) (s : CacheState σ) :
    CacheState σ :=
  { s with policy := P.pInsert k s.policy, map := memplace k v s.map }

/-- Private `Update(key, value)`: `cache_policy.Touch(key)` then
`cache_items_map[key] = value`. -/
def cUpdate {σ : Type} (P : PolicyOps σ) (k v : Nat) (s : CacheState σ) :
    CacheState σ :=
  { s with policy := P.pTouch k s.policy, map := massign k v s.map }

/-- Private `Erase(iterator)`: `cache_policy.Erase(it->first)`, then
`on_erase_callback(it->first, it->second)`, then
`cache_items_map.erase(it)`. -/
def cEraseEntry {σ : Type} (P : PolicyOps σ) (k w : Nat) (s : CacheState σ) :
    CacheState σ :=
  { s with policy := P.pErase k s.policy,
           hookLog := s.hookLog ++ [(k, w)],
           map := merase k s.map }

/-- Private `Erase(key)`: look up `key` in the map and erase the entry
if found, otherwise do nothing. -/
def cEraseKey {σ : Type} (P : PolicyOps σ) (k : Nat) (s : CacheState σ) :
    CacheState σ :=
  match mfind k s.map with
  | some w => cEraseEntry P k w s
  | none => s

/-- Public `Put(key, value)`: update in place when the key exists;
otherwise, when `size() >= max_cache_size`, erase the policy's
replacement candidate first, then insert.  `none` models the
`std::runtime_error` a policy throws from `ReplacementCandidate` on an
empty policy (inside a `noexcept` member, i.e. fatal). -/
def cPut {σ : Type} (P : PolicyOps σ) (k v : Nat) (s : CacheState σ) :
    Option (CacheState σ) :=
  match mfind k s.map with
  | some _ => some (cUpdate P k v s)
  | none =>
    if s.maxSize ≤ s.map.length then
      match P.pCandidate s.policy with
      | some ek => some (cInsert P k v (cEraseKey P ek s))
      | none => none
    else
      some (cInsert P k v s)

/-- Public `TryGet(key)`: on a hit, `cache_policy.Touch(key)` and return
the value with found = true (`some v`); on a miss, return found = false
(`none`) with no state change. -/
def cTryGet {σ : Type} (P : PolicyOps σ) (k : Nat) (s : CacheState σ) :
    CacheState σ × Option Nat :=
  match mfind k s.map with
  | some v => ({ s with policy := P.pTouch k s.policy }, some v)
  | none => (s, none)

/-- Public `Get(key)`: `TryGet`, then throw `KeyNotFound` when the key
was not found. -/
def cGet {σ : Type} (P : PolicyOps σ) (k : Nat) (s : CacheState σ) :
    CacheState σ × Except CacheError Nat :=
  match cTryGet P k s with
  | (s', some v) => (s', Except.ok v)
  | (s', none) => (s', Except.error CacheError.keyNotFound)

/-- Public `Cached(key)`: pure membership test, no state change. -/
def cCached {σ : Type} (k : Nat) (s : CacheState σ) : Bool :=
  (mfind k s.map).isSome

/-- Public `Size()`: `cache_items_map.size()`. -/
def cSize {σ : Type} (s : CacheState σ) : Nat := s.map.length

/-- Public `Remove(key)`: erase the entry and return true when the key
exists, otherwise return false. -/
def cRemove {σ : Type} (P : PolicyOps σ) (k : Nat) (s : CacheState σ) :
    CacheState σ × Bool :=
  match mfind k s.map with
  | some w => (cEraseEntry P k w s, true)
  | none => (s, false)

/-- Public `Clear()`: `cache_policy.Erase(key)` for every key in the
map, then `cache_items_map.clear()`.  The erase hook is not invoked. -/
def cClear {σ : Type} (P : PolicyOps σ) (s : CacheState σ) : CacheState σ :=
  { s with policy := s.map.foldl (fun p kv => P.pErase kv.1 p) s.policy,
           map := [] }

/-- One public cache operation (the mutating/observing API surface). -/
inductive Op where
  | put (k v : Nat)
  | tryGet (k : Nat)
  | get (k : Nat)
  | cached (k : Nat)
  | remove (k : Nat)
  | clear
deriving DecidableEq, Repr

/-- The state after one public operation.  `none` marks the one fatal
path: `ReplacementCandidate` on an empty policy inside `Put`.  A `Get`
miss throws to the caller but leaves the cache usable, so the run
continues. -/
def stepOp {σ : Type} (P : PolicyOps σ) (o : Op) (s : CacheState σ) :
    Option (CacheState σ) :=
  match o with
  | Op.put k v => cPut P k v s
  | Op.tryGet k => some (cTryGet P k s).1
  | Op.get k => some (cGet P k s).1
  | Op.cached _ => some s
  | Op.remove k => some (cRemove P k s).1
  | Op.clear => some (cClear P s)

/-- Run a sequence of public operations from a state. -/
def runOps {σ : Type} (P : PolicyOps σ) : List Op → CacheState σ →
    Option (CacheState σ)
  | [], s => some s
  | o :: t, s =>
    match stepOp P o s with
    | some s' => runOps P t s'
    | none => none

/-- Contract the cache needs from a policy, relative to a state
invariant `Inv` (for the three list-backed policies, `Inv` is
`List.Nodup`, which each `Insert`'s duplicate guard maintains):
inserting a tracked key changes nothing, inserting a new key adds
exactly it, `Touch` preserves the tracked key multiset, `Erase` removes
exactly the key, and `ReplacementCandidate` returns a tracked key and
fails exactly on an empty policy. -/
structure LawfulPolicy {σ : Type} (P : PolicyOps σ) (Inv : σ → Prop) : Prop where
  insert_inv : ∀ k p, Inv p → Inv (P.pInsert k p)
  touch_inv : ∀ k p, Inv p → Inv (P.pTouch k p)
  erase_inv : ∀ k p, Inv p → Inv (P.pErase k p)
  keys_insert_mem : ∀ k p, Inv p → k ∈ P.pKeys p →
    P.pKeys (P.pInsert k p) = P.pKeys p
  keys_insert_new : ∀ k p, Inv p → k ∉ P.pKeys p →
    List.Perm (P.pKeys (P.pInsert k p)) (k :: P.pKeys p)
  keys_touch : ∀ k p, Inv p → List.Perm (P.pKeys (P.pTouch k p)) (P.pKeys p)
  keys_erase : ∀ k p, Inv p →
    List.Perm (P.pKeys (P.pErase k p)) ((P.pKeys p).erase k)
  cand_mem : ∀ p c, P.pCandidate p = some c → c ∈ P.pKeys p
  cand_none : ∀ p, P.pCandidate p = none ↔ P.pKeys p = []

/-- The inductive invariant of a reachable cache: the policy's tracked
keys are (as a multiset) exactly the map's keys, the policy state is
well formed, the map's keys are duplicate-free, and the size bound
holds. -/
structure CacheInv {σ : Type} (P : PolicyOps σ) (Inv : σ → Prop)
    (s : CacheState σ) : Prop where
  agree : List.Perm (P.pKeys s.policy) (mkeys s.map)
  pinv : Inv s.policy
  nodup : (mkeys s.map).Nodup
  bound : s.map.length ≤ s.maxSize

/-! Basic lemmas about the association-list map model. -/

theorem mkeys_nil : mkeys [] = [] := rfl

theorem mkeys_cons (a v : Nat) (t : List (Nat × Nat)) :
    mkeys ((a, v) :: t) = a :: mkeys t := rfl

theorem mkeys_length (m : List (Nat × Nat)) : (mkeys m).length = m.length :=
  List.length_map m _

theorem mfind_isSome_iff (k : Nat) (m : List (Nat × Nat)) :
    (mfind k m).isSome ↔ k ∈ mkeys m := by
  induction m with
  | nil => simp [mfind, mkeys]
  | cons hd t ih =>
    obtain ⟨a, v⟩ := hd
    rw [mkeys_cons, List.mem_cons]
    by_cases h : a = k
    · subst h; simp [mfind]
    · simp only [mfind, if_neg h, ih]
      constructor
      · exact Or.inr
      · rintro (rfl | hm)
        · exact absurd rfl h
        · exact hm

theorem mfind_none_iff (k : Nat) (m : List (Nat × Nat)) :
    mfind k m = none ↔ k ∉ mkeys m := by
  rw [← mfind_isSome_iff]
  cases mfind k m <;> simp

theorem mem_mkeys_of_mfind (k w : Nat) (m : List (Nat × Nat))
    (h : mfind k m = some w) : k ∈ mkeys m := by
  rw [← mfind_isSome_iff, h]; rfl

theorem memplace_of_absent (k v : Nat) (m : List (Nat × Nat))
    (h : mfind k m = none) : memplace k v m = (k, v) :: m := by
  unfold memplace; rw [h]

theorem mkeys_massign (k v : Nat) (m : List (Nat × Nat))
    (h : k ∈ mkeys m) : mkeys (massign k v m) = mkeys m := by
  induction m with
  | nil => simp [mkeys] at h
  | cons hd t ih =>
    obtain ⟨a, w⟩ := hd
    by_cases hak : a = k
    · subst hak; simp [massign, mkeys_cons]
    · rw [mkeys_cons, List.mem_cons] at h
      rcases h with h | h
      · exact absurd h.symm hak
      · simp [massign, hak, mkeys_cons, ih h]

theorem mfind_massign_self (k v : Nat) (m : List (Nat × Nat)) :
    mfind k (massign k v m) = some v := by
  induction m with
  | nil => simp [massign, mfind]
  | cons hd t ih =>
    obtain ⟨a, w⟩ := hd
    by_cases hak : a = k
    · subst hak; simp [massign, mfind]
    · simp [massign, hak, mfind, ih]

theorem mfind_massign_ne (j k v : Nat) (m : List (Nat × Nat)) (h : j ≠ k) :
    mfind j (massign k v m) = mfind j m := by
  induction m with
  | nil => simp [massign, mfind, Ne.symm h]
  | cons hd t ih =>
    obtain ⟨a, w⟩ := hd
    by_cases hak : a = k
    · subst hak; simp [massign, mfind, Ne.symm h]
    · by_cases haj : a = j
      · subst haj; simp [massign, hak, mfind]
      · simp [massign, hak, mfind, haj, ih]

theorem mkeys_merase (k : Nat) (m : List (Nat × Nat)) :
    mkeys (merase k m) = (mkeys m).erase k := by
  induction m with
  | nil => simp [merase, mkeys]
  | cons hd t ih =>
    obtain ⟨a, w⟩ := hd
    by_cases hak : a = k
    · subst hak; simp [merase, mkeys_cons, List.erase_cons_head]
    · simp [merase, hak, mkeys_cons, ih, List.erase_cons, beq_iff_eq]

theorem mfind_merase_of_absent (j k : Nat) (m : List (Nat × Nat))
    (h : mfind j m = none) : mfind j (merase k m) = none := by
  rw [mfind_none_iff] at h ⊢
  rw [mkeys_merase]
  intro hmem
  exact h (List.mem_of_mem_erase hmem)

/-! Lemmas about `backOf` (`list.back()`) and `head?` (`list.front()`). -/

theorem backOf_eq_none_iff : ∀ l : List Nat, backOf l = none ↔ l = []
  | [] => by simp [backOf]
  | [a] => by simp [backOf]
  | a :: b :: t => by
    have ih := backOf_eq_none_iff (b :: t)
    simp only [backOf] at ih ⊢
    simp [ih]

theorem backOf_mem : ∀ (l : List Nat) (c : Nat), backOf l = some c → c ∈ l
  | [], c, h => by simp [backOf] at h
  | [a], c, h => by
    simp [backOf] at h
    simp [h]
  | a :: b :: t, c, h => by
    have hm := backOf_mem (b :: t) c (by simpa [backOf] using h)
    exact List.mem_cons_of_mem _ hm

theorem backOf_cons_of_ne_nil (a : Nat) (l : List Nat) (h : l ≠ []) :
    backOf (a :: l) = backOf l := by
  cases l with
  | nil => exact absurd rfl h
  | cons b t => rfl

theorem head?_eq_none_iff (l : List Nat) : l.head? = none ↔ l = [] := by
  cases l <;> simp

theorem head?_mem (l : List Nat) (c : Nat) (h : l.head? = some c) : c ∈ l := by
  cases l with
  | nil => simp at h
  | cons a t =>
    simp at h
    simp [h]

/-! The three list-backed policies satisfy the cache's contract, with
duplicate-freedom of the order list as the policy-state invariant (the
duplicate guard in each `Insert` maintains it). -/

theorem lru_lawful : LawfulPolicy LRUPolicyOps List.Nodup := by
  constructor
  · intro k p hp
    by_cases hk : k ∈ p <;> simp [LRUPolicyOps, hk, hp]
  · intro k p hp
    by_cases hk : k ∈ p
    · simpa [LRUPolicyOps, hk] using ⟨hp.not_mem_erase, hp.erase k⟩
    · simpa [LRUPolicyOps, hk] using hp
  · intro k p hp
    exact hp.erase k
  · intro k p _ hk
    simp only [LRUPolicyOps] at hk ⊢
    simp [hk]
  · intro k p _ hk
    simp only [LRUPolicyOps] at hk ⊢
    rw [if_neg hk]
  · intro k p _
    by_cases hk : k ∈ p
    · simpa [LRUPolicyOps, hk] using (List.perm_cons_erase hk).symm
    · simp [LRUPolicyOps, hk]
  · intro k p _
    exact List.Perm.refl _
  · exact fun p c h => backOf_mem p c h
  · exact fun p => backOf_eq_none_iff p

theorem fifo_lawful : LawfulPolicy FIFOPolicyOps List.Nodup := by
  constructor
  · intro k p hp
    by_cases hk : k ∈ p <;> simp [FIFOPolicyOps, hk, hp]
  · intro k p hp
    exact hp
  · intro k p hp
    exact hp.erase k
  · intro k p _ hk
    simp only [FIFOPolicyOps] at hk ⊢
    simp [hk]
  · intro k p _ hk
    simp only [FIFOPolicyOps] at hk ⊢
    rw [if_neg hk]
  · intro k p _
    exact List.Perm.refl _
  · intro k p _
    exact List.Perm.refl _
  · exact fun p c h => backOf_mem p c h
  · exact fun p => backOf_eq_none_iff p

theorem lifo_lawful : LawfulPolicy LIFOPolicyOps List.Nodup := by
  constructor
  · intro k p hp
    by_cases hk : k ∈ p <;> simp [LIFOPolicyOps, hk, hp]
  · intro k p hp
    exact hp
  · intro k p hp
    exact hp.erase k
  · intro k p _ hk
    simp only [LIFOPolicyOps] at hk ⊢
    simp [hk]
  · intro k p _ hk
    simp only [LIFOPolicyOps] at hk ⊢
    rw [if_neg hk]
  · intro k p _
    exact List.Perm.refl _
  · intro k p _
    exact List.Perm.refl _
  · exact fun p c h => head?_mem p c h
  · exact fun p => head?_eq_none_iff p

/-! Reduction lemmas for the branching operations. -/

theorem cPut_found {σ : Type} (P : PolicyOps σ) (k v w : Nat) (s : CacheState σ)
    (h : mfind k s.map = some w) : cPut P k v s = some (cUpdate P k v s) := by
  simp [cPut, h]

theorem cPut_room {σ : Type} (P : PolicyOps σ) (k v : Nat) (s : CacheState σ)
    (h : mfind k s.map = none) (hroom : s.map.length < s.maxSize) :
    cPut P k v s = some (cInsert P k v s) := by
  simp [cPut, h, Nat.not_le_of_lt hroom]

theorem cPut_evict {σ : Type} (P : PolicyOps σ) (k v ek : Nat) (s : CacheState σ)
    (h : mfind k s.map = none) (hfull : s.maxSize ≤ s.map.length)
    (hc : P.pCandidate s.policy = some ek) :
    cPut P k v s = some (cInsert P k v (cEraseKey P ek s)) := by
  simp [cPut, h, hfull, hc]

theorem cEraseKey_found {σ : Type} (P : PolicyOps σ) (k w : Nat) (s : CacheState σ)
    (h : mfind k s.map = some w) : cEraseKey P k s = cEraseEntry P k w s := by
  simp [cEraseKey, h]

theorem cTryGet_hit {σ : Type} (P : PolicyOps σ) (k v : Nat) (s : CacheState σ)
    (h : mfind k s.map = some v) :
    cTryGet P k s = ({ s with policy := P.pTouch k s.policy }, some v) := by
  simp [cTryGet, h]

theorem cTryGet_miss {σ : Type} (P : PolicyOps σ) (k : Nat) (s : CacheState σ)
    (h : mfind k s.map = none) : cTryGet P k s = (s, none) := by
  simp [cTryGet, h]

theorem cRemove_found {σ : Type} (P : PolicyOps σ) (k w : Nat) (s : CacheState σ)
    (h : mfind k s.map = some w) :
    cRemove P k s = (cEraseEntry P k w s, true) := by
  simp [cRemove, h]

theorem cRemove_miss {σ : Type} (P : PolicyOps σ) (k : Nat) (s : CacheState σ)
    (h : mfind k s.map = none) : cRemove P k s = (s, false) := by
  simp [cRemove, h]

theorem merase_length (k w : Nat) (m : List (Nat × Nat))
    (h : mfind k m = some w) : (merase k m).length + 1 = m.length := by
  have hm : k ∈ mkeys m := mem_mkeys_of_mfind k w m h
  have hpos : 0 < (mkeys m).length := List.length_pos_of_mem hm
  rw [← mkeys_length, mkeys_merase, List.length_erase_of_mem hm, ← mkeys_length m]
  omega

/-! Preservation of the cache invariant by each operation. -/

theorem update_preserve {σ : Type} (P : PolicyOps σ) (Inv : σ → Prop)
    (hL : LawfulPolicy P Inv) (s : CacheState σ) (hinv : CacheInv P Inv s)
    (k v : Nat) (hk : k ∈ mkeys s.map) : CacheInv P Inv (cUpdate P k v s) := by
  refine ⟨?_, hL.touch_inv k s.policy hinv.pinv, ?_, ?_⟩
  · show List.Perm (P.pKeys (P.pTouch k s.policy)) (mkeys (massign k v s.map))
    rw [mkeys_massign k v s.map hk]
    exact (hL.keys_touch k s.policy hinv.pinv).trans hinv.agree
  · show (mkeys (massign k v s.map)).Nodup
    rw [mkeys_massign k v s.map hk]
    exact hinv.nodup
  · show (massign k v s.map).length ≤ s.maxSize
    rw [← mkeys_length, mkeys_massign k v s.map hk, mkeys_length]
    exact hinv.bound

theorem insert_preserve {σ : Type} (P : PolicyOps σ) (Inv : σ → Prop)
    (hL : LawfulPolicy P Inv) (s : CacheState σ) (hinv : CacheInv P Inv s)
    (k v : Nat) (hk : mfind k s.map = none)
    (hroom : s.map.length < s.maxSize) : CacheInv P Inv (cInsert P k v s) := by
  have hk' : k ∉ mkeys s.map := (mfind_none_iff k s.map).mp hk
  have hkp : k ∉ P.pKeys s.policy := fun h => hk' (hinv.agree.mem_iff.mp h)
  have hmap : (cInsert P k v s).map = (k, v) :: s.map :=
    memplace_of_absent k v s.map hk
  refine ⟨?_, hL.insert_inv k s.policy hinv.pinv, ?_, ?_⟩
  · show List.Perm (P.pKeys (P.pInsert k s.policy)) (mkeys (cInsert P k v s).map)
    rw [hmap, mkeys_cons]
    exact (hL.keys_insert_new k s.policy hinv.pinv hkp).trans (hinv.agree.cons k)
  · show (mkeys (cInsert P k v s).map).Nodup
    rw [hmap, mkeys_cons]
    exact List.nodup_cons.mpr ⟨hk', hinv.nodup⟩
  · show (cInsert P k v s).map.length ≤ s.maxSize
    rw [hmap]
    exact hroom

theorem eraseEntry_preserve {σ : Type} (P : PolicyOps σ) (Inv : σ → Prop)
    (hL : LawfulPolicy P Inv) (s : CacheState σ) (hinv : CacheInv P Inv s)
    (k w : Nat) : CacheInv P Inv (cEraseEntry P k w s) := by
  refine ⟨?_, hL.erase_inv k s.policy hinv.pinv, ?_, ?_⟩
  · show List.Perm (P.pKeys (P.pErase k s.policy)) (mkeys (merase k s.map))
    rw [mkeys_merase]
    exact (hL.keys_erase k s.policy hinv.pinv).trans (hinv.agree.erase k)
  · show (mkeys (merase k s.map)).Nodup
    rw [mkeys_merase]
    exact hinv.nodup.erase k
  · show (merase k s.map).length ≤ s.maxSize
    rw [← mkeys_length, mkeys_merase]
    exact Nat.le_trans ((List.erase_sublist k (mkeys s.map)).length_le)
      (Nat.le_trans (Nat.le_of_eq (mkeys_length s.map)) hinv.bound)

theorem clear_fold_inv {σ : Type} (P : PolicyOps σ) (Inv : σ → Prop)
    (hL : LawfulPolicy P Inv) :
    ∀ (m : List (Nat × Nat)) (p : σ), Inv p →
      Inv (m.foldl (fun p kv => P.pErase kv.1 p) p)
  | [], _, hp => hp
  | (k, _) :: t, p, hp => clear_fold_inv P Inv hL t _ (hL.erase_inv k p hp)

theorem clear_fold_keys {σ : Type} (P : PolicyOps σ) (Inv : σ → Prop)
    (hL : LawfulPolicy P Inv) :
    ∀ (m : List (Nat × Nat)) (p : σ), Inv p → (mkeys m).Nodup →
      List.Perm (P.pKeys p) (mkeys m) →
      P.pKeys (m.foldl (fun p kv => P.pErase kv.1 p) p) = []
  | [], _, _, _, ha => ha.eq_nil
  | (k, v) :: t, p, hp, hn, ha => by
    have hp' := hL.erase_inv k p hp
    have hn' : (mkeys t).Nodup := (List.nodup_cons.mp (by rwa [mkeys_cons] at hn)).2
    have ha' : List.Perm (P.pKeys (P.pErase k p)) (mkeys t) := by
      have h2 := ha.erase k
      rw [mkeys_cons, List.erase_cons_head] at h2
      exact (hL.keys_erase k p hp).trans h2
    exact clear_fold_keys P Inv hL t _ hp' hn' ha'

theorem clear_preserve {σ : Type} (P : PolicyOps σ) (Inv : σ → Prop)
    (hL : LawfulPolicy P Inv) (s : CacheState σ) (hinv : CacheInv P Inv s) :
    CacheInv P Inv (cClear P s) ∧ P.pKeys (cClear P s).policy = [] := by
  have hkeys : P.pKeys (cClear P s).policy = [] :=
    clear_fold_keys P Inv hL s.map s.policy hinv.pinv hinv.nodup hinv.agree
  refine ⟨⟨?_, clear_fold_inv P Inv hL s.map s.policy hinv.pinv, ?_, ?_⟩, hkeys⟩
  · show List.Perm (P.pKeys (cClear P s).policy) (mkeys [])
    rw [hkeys, mkeys_nil]
  · show (mkeys ([] : List (Nat × Nat))).Nodup
    simp [mkeys]
  · exact Nat.zero_le _

theorem tryGet_preserve {σ : Type} (P : PolicyOps σ) (Inv : σ → Prop)
    (hL : LawfulPolicy P Inv) (s : CacheState σ) (hinv : CacheInv P Inv s)
    (k : Nat) : CacheInv P Inv (cTryGet P k s).1 := by
  cases h : mfind k s.map with
  | none => rw [cTryGet_miss P k s h]; exact hinv
  | some v =>
    rw [cTryGet_hit P k v s h]
    exact ⟨(hL.keys_touch k s.policy hinv.pinv).trans hinv.agree,
      hL.touch_inv k s.policy hinv.pinv, hinv.nodup, hinv.bound⟩

theorem candidate_of_full {σ : Type} (P : PolicyOps σ) (Inv : σ → Prop)
    (hL : LawfulPolicy P Inv) (s : CacheState σ) (hinv : CacheInv P Inv s)
    (hcap : 0 < s.maxSize) (hfull : s.maxSize ≤ s.map.length) :
    ∃ ek w, P.pCandidate s.policy = some ek ∧ mfind ek s.map = some w := by
  cases hc : P.pCandidate s.policy with
  | none =>
    have hkeys : P.pKeys s.policy = [] := (hL.cand_none s.policy).mp hc
    have hmk : mkeys s.map = [] := (hkeys ▸ hinv.agree).symm.eq_nil
    have : s.map.length = 0 := by rw [← mkeys_length, hmk]; rfl
    omega
  | some ek =>
    have hmem : ek ∈ mkeys s.map :=
      hinv.agree.mem_iff.mp (hL.cand_mem s.policy ek hc)
    obtain ⟨w, hw⟩ := Option.isSome_iff_exists.mp
      ((mfind_isSome_iff ek s.map).mpr hmem)
    exact ⟨ek, w, rfl, hw⟩

theorem put_preserve {σ : Type} (P : PolicyOps σ) (Inv : σ → Prop)
    (hL : LawfulPolicy P Inv) (s : CacheState σ) (hinv : CacheInv P Inv s)
    (hcap : 0 < s.maxSize) (k v : Nat) :
    ∃ s', cPut P k v s = some s' ∧ CacheInv P Inv s' ∧
      s'.maxSize = s.maxSize := by
  cases h : mfind k s.map with
  | some w =>
    refine ⟨cUpdate P k v s, cPut_found P k v w s h, ?_, rfl⟩
    exact update_preserve P Inv hL s hinv k v (mem_mkeys_of_mfind k w s.map h)
  | none =>
    by_cases hfull : s.maxSize ≤ s.map.length
    · obtain ⟨ek, w, hc, hw⟩ := candidate_of_full P Inv hL s hinv hcap hfull
      have h1 : cEraseKey P ek s = cEraseEntry P ek w s := cEraseKey_found P ek w s hw
      have hinv1 : CacheInv P Inv (cEraseEntry P ek w s) :=
        eraseEntry_preserve P Inv hL s hinv ek w
      have hlen : (cEraseEntry P ek w s).map.length < s.maxSize := by
        have h2 := merase_length ek w s.map hw
        have hb := hinv.bound
        show (merase ek s.map).length < s.maxSize
        omega
      have habs : mfind k (cEraseEntry P ek w s).map = none :=
        mfind_merase_of_absent k ek s.map h
      refine ⟨cInsert P k v (cEraseKey P ek s), cPut_evict P k v ek s h hfull hc, ?_, ?_⟩
      · rw [h1]
        exact insert_preserve P Inv hL (cEraseEntry P ek w s) hinv1 k v habs hlen
      · rw [h1]
        rfl
    · refine ⟨cInsert P k v s, cPut_room P k v s h (Nat.lt_of_not_le hfull), ?_, rfl⟩
      exact insert_preserve P Inv hL s hinv k v h (Nat.lt_of_not_le hfull)

theorem remove_preserve {σ : Type} (P : PolicyOps σ) (Inv : σ → Prop)
    (hL : LawfulPolicy P Inv) (s : CacheState σ) (hinv : CacheInv P Inv s)
    (k : Nat) : CacheInv P Inv (cRemove P k s).1 := by
  cases h : mfind k s.map with
  | none => rw [cRemove_miss P k s h]; exact hinv
  | some w =>
    rw [cRemove_found P k w s h]
    exact eraseEntry_preserve P Inv hL s hinv k w

theorem step_preserve {σ : Type} (P : PolicyOps σ) (Inv : σ → Prop)
    (hL : LawfulPolicy P Inv) (s : CacheState σ) (hinv : CacheInv P Inv s)
    (hcap : 0 < s.maxSize) (o : Op) :
    ∃ s', stepOp P o s = some s' ∧ CacheInv P Inv s' ∧
      s'.maxSize = s.maxSize := by
  cases o with
  | put k v =>
    obtain ⟨s', h, hinv', hmax⟩ := put_preserve P Inv hL s hinv hcap k v
    exact ⟨s', h, hinv', hmax⟩
  | tryGet k =>
    refine ⟨(cTryGet P k s).1, rfl, tryGet_preserve P Inv hL s hinv k, ?_⟩
    cases h : mfind k s.map with
    | none => rw [cTryGet_miss P k s h]
    | some v => rw [cTryGet_hit P k v s h]
  | get k =>
    refine ⟨(cGet P k s).1, rfl, ?_, ?_⟩
    · have : (cGet P k s).1 = (cTryGet P k s).1 := by
        unfold cGet
        cases cTryGet P k s with
        | mk s' r => cases r <;> rfl
      rw [this]
      exact tryGet_preserve P Inv hL s hinv k
    · have : (cGet P k s).1 = (cTryGet P k s).1 := by
        unfold cGet
        cases cTryGet P k s with
        | mk s' r => cases r <;> rfl
      rw [this]
      cases h : mfind k s.map with
      | none => rw [cTryGet_miss P k s h]
      | some v => rw [cTryGet_hit P k v s h]
  | cached k => exact ⟨s, rfl, hinv, rfl⟩
  | remove k =>
    refine ⟨(cRemove P k s).1, rfl, remove_preserve P Inv hL s hinv k, ?_⟩
    cases h : mfind k s.map with
    | none => rw [cRemove_miss P k s h]
    | some w =>
      rw [cRemove_found P k w s h]
      rfl
  | clear => exact ⟨cClear P s, rfl, (clear_preserve P Inv hL s hinv).1, rfl⟩

theorem run_preserve {σ : Type} (P : PolicyOps σ) (Inv : σ → Prop)
    (hL : LawfulPolicy P Inv) :
    ∀ (ops : List Op) (s : CacheState σ), CacheInv P Inv s → 0 < s.maxSize →
      ∃ s', runOps P ops s = some s' ∧ CacheInv P Inv s' ∧
        s'.maxSize = s.maxSize
  | [], s, hinv, _ => ⟨s, rfl, hinv, rfl⟩
  | o :: t, s, hinv, hcap => by
    obtain ⟨s1, h1, hinv1, hmax1⟩ := step_preserve P Inv hL s hinv hcap o
    obtain ⟨s', h', hinv', hmax'⟩ :=
      run_preserve P Inv hL t s1 hinv1 (by omega)
    refine ⟨s', ?_, hinv', by omega⟩
    simp [runOps, h1, h']

theorem cacheInv_init {σ : Type} (P : PolicyOps σ) (Inv : σ → Prop)
    (p0 : σ) (cap : Nat) (hp0i : Inv p0) (hp0k : P.pKeys p0 = []) :
    CacheInv P Inv (cInit p0 cap) := by
  refine ⟨?_, hp0i, ?_, ?_⟩
  · show List.Perm (P.pKeys p0) (mkeys [])
    rw [hp0k, mkeys_nil]
  · show (mkeys ([] : List (Nat × Nat))).Nodup
    simp [mkeys]
  · exact Nat.zero_le _

theorem massign_length (k v : Nat) (m : List (Nat × Nat)) (h : k ∈ mkeys m) :
    (massign k v m).length = m.length := by
  rw [← mkeys_length, mkeys_massign k v m h, mkeys_length]

theorem cGet_hit {σ : Type} (P : PolicyOps σ) (k v : Nat) (s : CacheState σ)
    (h : mfind k s.map = some v) :
    cGet P k s = ({ s with policy := P.pTouch k s.policy }, Except.ok v) := by
  unfold cGet
  rw [cTryGet_hit P k v s h]

theorem cGet_miss {σ : Type} (P : PolicyOps σ) (k : Nat) (s : CacheState σ)
    (h : mfind k s.map = none) :
    cGet P k s = (s, Except.error CacheError.keyNotFound) := by
  unfold cGet
  rw [cTryGet_miss P k s h]

/-! Claim theorems. -/

/-- C5: with the LRU policy and capacity 3, inserting keys A=0, B=1, C=2
(in that order), then `TryGet(A)` (a hit), then inserting new key D=3
evicts exactly B (the least recently used key): afterwards A, C, D are
present, B is absent, and the erase hook fired exactly once, for B with
its stored value. -/
theorem C5_lru_evicts_lru_key :
    (runOps LRUPolicyOps
      [Op.put 0 10, Op.put 1 11, Op.put 2 12, Op.tryGet 0, Op.put 3 13]
      (cInit [] 3)).map
      (fun s => (cCached 0 s, cCached 1 s, cCached 2 s, cCached 3 s,
        s.hookLog)) =
      some (true, false, true, true, [(1, 11)]) := by
  rfl

/-- C9: for a key absent from the cache, `Get` fails with the
`KeyNotFound` error while `TryGet` on the same state returns
found = false (`none`) as a normal result (its result type carries no
error), and neither operation changes any cache or policy state. -/
theorem C9_miss_semantics {σ : Type} (P : PolicyOps σ) (s : CacheState σ)
    (k : Nat) (h : mfind k s.map = none) :
    cGet P k s = (s, Except.error CacheError.keyNotFound) ∧
    cTryGet P k s = (s, none) := by
  exact ⟨cGet_miss P k s h, cTryGet_miss P k s h⟩

/-- Witness for C9 at a concrete input: key 7 is absent from a freshly
constructed LRU cache of capacity 1. -/
theorem C9_miss_semantics_witness :
    cGet LRUPolicyOps 7 (cInit [] 1) =
      (cInit [] 1, Except.error CacheError.keyNotFound) ∧
    cTryGet LRUPolicyOps 7 (cInit [] 1) = (cInit [] 1, none) :=
  C9_miss_semantics LRUPolicyOps (cInit [] 1) 7 rfl

/-- C10: for every state and every key `k` already present in the map,
`Put(k, v)` takes the update path: no eviction, no erase-hook
invocation (not even for the overwritten old value), capacity
unchanged, even when the cache is at capacity; only the stored value
for `k` changes (other keys' values are untouched) and the policy is
touched. -/
theorem C10_put_present_no_evict {σ : Type} (P : PolicyOps σ)
    (s : CacheState σ) (k v w : Nat) (h : mfind k s.map = some w) :
    cPut P k v s = some (cUpdate P k v s) ∧
    (cUpdate P k v s).hookLog = s.hookLog ∧
    (cUpdate P k v s).maxSize = s.maxSize ∧
    cSize (cUpdate P k v s) = cSize s ∧
    (cUpdate P k v s).policy = P.pTouch k s.policy ∧
    mfind k (cUpdate P k v s).map = some v ∧
    (∀ j, j ≠ k → mfind j (cUpdate P k v s).map = mfind j s.map) := by
  refine ⟨cPut_found P k v w s h, rfl, rfl, ?_, rfl, ?_, ?_⟩
  · exact massign_length k v s.map (mem_mkeys_of_mfind k w s.map h)
  · exact mfind_massign_self k v s.map
  · exact fun j hj => mfind_massign_ne j k v s.map hj

/-- Witness for C10 at a concrete input: a capacity-2 LRU cache holding
keys 0 and 1 is at capacity; `Put(1, 5)` overwrites in place. -/
theorem C10_put_present_no_evict_witness :
    cPut LRUPolicyOps 1 5 ⟨[(1, 11), (0, 10)], [1, 0], 2, []⟩ =
      some (cUpdate LRUPolicyOps 1 5 ⟨[(1, 11), (0, 10)], [1, 0], 2, []⟩) ∧
    (cUpdate LRUPolicyOps 1 5 ⟨[(1, 11), (0, 10)], [1, 0], 2, []⟩).hookLog
      = [] ∧
    (cUpdate LRUPolicyOps 1 5 ⟨[(1, 11), (0, 10)], [1, 0], 2, []⟩).maxSize
      = 2 ∧
    cSize (cUpdate LRUPolicyOps 1 5 ⟨[(1, 11), (0, 10)], [1, 0], 2, []⟩)
      = cSize (⟨[(1, 11), (0, 10)], [1, 0], 2, []⟩ : CacheState (List Nat)) ∧
    (cUpdate LRUPolicyOps 1 5 ⟨[(1, 11), (0, 10)], [1, 0], 2, []⟩).policy
      = LRUPolicyOps.pTouch 1 [1, 0] ∧
    mfind 1
      (cUpdate LRUPolicyOps 1 5 ⟨[(1, 11), (0, 10)], [1, 0], 2, []⟩).map
      = some 5 ∧
    (∀ j, j ≠ 1 →
      mfind j
        (cUpdate LRUPolicyOps 1 5 ⟨[(1, 11), (0, 10)], [1, 0], 2, []⟩).map
        = mfind j [(1, 11), (0, 10)]) :=
  C10_put_present_no_evict LRUPolicyOps ⟨[(1, 11), (0, 10)], [1, 0], 2, []⟩
    1 5 11 rfl

/-- C3 is false as stated: it asserts the eviction hook fires once per
entry removal for all three removal causes including bulk `Clear`, but
`Clear()` in src/cache.hpp only calls `cache_policy.Erase` and
`cache_items_map.clear()`, never `on_erase_callback`.  Concretely: a
capacity-1 LRU cache after `Put(1, 2)` holds entry (1, 2) with an empty
hook log; `Clear` then removes that entry and the hook log is still
empty, so the removal of (1, 2) by `Clear` invoked the hook zero
times, not once. -/
theorem C3_counterexample_clear_is_silent :
    runOps LRUPolicyOps [Op.put 1 2] (cInit [] 1) =
      some ⟨[(1, 2)], [1], 1, []⟩ ∧
    runOps LRUPolicyOps [Op.put 1 2, Op.clear] (cInit [] 1) =
      some ⟨[], [], 1, []⟩ := by
  decide

/-- C3 (amended): the eviction hook is invoked with the removed entry's
(key, value) exactly once per entry removal caused by explicit `Remove`
or by capacity eviction during `Put`; bulk `Clear` removes entries
without invoking the hook at all. -/
theorem C3_hook_once_per_removal {σ : Type} (P : PolicyOps σ)
    (Inv : σ → Prop) (hL : LawfulPolicy P Inv) (s : CacheState σ)
    (hinv : CacheInv P Inv s) :
    (cClear P s).hookLog = s.hookLog ∧
    (∀ k w, mfind k s.map = some w →
      (cRemove P k s).1.hookLog = s.hookLog ++ [(k, w)]) ∧
    (∀ k v, mfind k s.map = none → s.maxSize ≤ s.map.length →
      0 < s.maxSize →
      ∃ s' ek w, cPut P k v s = some s' ∧
        P.pCandidate s.policy = some ek ∧ mfind ek s.map = some w ∧
        s'.hookLog = s.hookLog ++ [(ek, w)]) := by
  refine ⟨rfl, ?_, ?_⟩
  · intro k w hk
    rw [cRemove_found P k w s hk]
    rfl
  · intro k v hk hfull hcap
    obtain ⟨ek, w, hc, hw⟩ := candidate_of_full P Inv hL s hinv hcap hfull
    refine ⟨cInsert P k v (cEraseKey P ek s), ek, w,
      cPut_evict P k v ek s hk hfull hc, hc, hw, ?_⟩
    rw [cEraseKey_found P ek w s hw]
    rfl

/-- Witness for the amended C3 at a concrete input: a full capacity-2
LRU cache holding keys 0 and 1. -/
theorem C3_hook_once_per_removal_witness :
    (cClear LRUPolicyOps ⟨[(1, 11), (0, 10)], [1, 0], 2, []⟩).hookLog
      = [] ∧
    (∀ k w, mfind k [(1, 11), (0, 10)] = some w →
      (cRemove LRUPolicyOps k
        ⟨[(1, 11), (0, 10)], [1, 0], 2, []⟩).1.hookLog = [] ++ [(k, w)]) ∧
    (∀ k v, mfind k [(1, 11), (0, 10)] = none →
      (2 : Nat) ≤ [(1, 11), (0, 10)].length → (0 : Nat) < 2 →
      ∃ s' ek w,
        cPut LRUPolicyOps k v ⟨[(1, 11), (0, 10)], [1, 0], 2, []⟩
          = some s' ∧
        LRUPolicyOps.pCandidate [1, 0] = some ek ∧
        mfind ek [(1, 11), (0, 10)] = some w ∧
        s'.hookLog = [] ++ [(ek, w)]) :=
  C3_hook_once_per_removal LRUPolicyOps List.Nodup lru_lawful
    ⟨[(1, 11), (0, 10)], [1, 0], 2, []⟩
    ⟨List.Perm.refl _, by decide, by decide, by decide⟩

/-- C1: for every sequence of public operations starting from a freshly
constructed cache (with any lawful policy, started empty), the set of
keys tracked by the eviction policy equals the set of keys present in
the cache's map in the resulting state — and hence after every
operation, since the operation list is arbitrary. -/
theorem C1_policy_keys_eq_map_keys {σ : Type} (P : PolicyOps σ)
    (Inv : σ → Prop) (hL : LawfulPolicy P Inv) (p0 : σ) (hp0i : Inv p0)
    (hp0k : P.pKeys p0 = []) (cap : Nat) (hcap : 0 < cap) (ops : List Op)
    (s : CacheState σ) (h : runOps P ops (cInit p0 cap) = some s) :
    (P.pKeys s.policy).toFinset = (mkeys s.map).toFinset := by
  obtain ⟨s', h', hinv', _⟩ := run_preserve P Inv hL ops (cInit p0 cap)
    (cacheInv_init P Inv p0 cap hp0i hp0k) hcap
  rw [h] at h'
  obtain rfl := Option.some.inj h'
  exact List.toFinset_eq_of_perm _ _ hinv'.agree

/-- Witness for C1 at a concrete input: one `Put` on a fresh capacity-2
LRU cache; the policy tracks exactly the map's key set. -/
theorem C1_policy_keys_eq_map_keys_witness :
    (LRUPolicyOps.pKeys
        (⟨[(1, 5)], [1], 2, []⟩ : CacheState (List Nat)).policy).toFinset
      = (mkeys (⟨[(1, 5)], [1], 2, []⟩ : CacheState (List Nat)).map).toFinset :=
  C1_policy_keys_eq_map_keys LRUPolicyOps List.Nodup lru_lawful []
    List.nodup_nil rfl 2 (by decide) [Op.put 1 5] ⟨[(1, 5)], [1], 2, []⟩
    (by decide)

/-- C2: for every sequence of public operations on a cache of capacity
`cap > 0`, the resulting state satisfies `0 ≤ Size() ≤ cap` (and the
capacity itself is unchanged); furthermore `Put` from that state never
makes the entry count exceed `cap`, and it evicts (fires the erase
hook) only when the inserted key is new and the map is at capacity —
never when there is free capacity. -/
theorem C2_capacity_invariant {σ : Type} (P : PolicyOps σ) (Inv : σ → Prop)
    (hL : LawfulPolicy P Inv) (p0 : σ) (hp0i : Inv p0)
    (hp0k : P.pKeys p0 = []) (cap : Nat) (hcap : 0 < cap) (ops : List Op)
    (s : CacheState σ) (h : runOps P ops (cInit p0 cap) = some s) :
    (0 ≤ cSize s ∧ cSize s ≤ cap) ∧ s.maxSize = cap ∧
    (∀ k v s', cPut P k v s = some s' →
      cSize s' ≤ cap ∧
      (s'.hookLog ≠ s.hookLog → mfind k s.map = none ∧ cSize s = cap)) := by
  obtain ⟨s', h', hinv', hmax⟩ := run_preserve P Inv hL ops (cInit p0 cap)
    (cacheInv_init P Inv p0 cap hp0i hp0k) hcap
  rw [h] at h'
  obtain rfl := Option.some.inj h'
  have hmax' : s.maxSize = cap := hmax
  refine ⟨⟨Nat.zero_le _, hmax' ▸ hinv'.bound⟩, hmax', ?_⟩
  intro k v s1 hput
  cases hk : mfind k s.map with
  | some w =>
    rw [cPut_found P k v w s hk] at hput
    obtain rfl := Option.some.inj hput
    refine ⟨?_, fun hne => absurd rfl hne⟩
    have hsz : cSize (cUpdate P k v s) = cSize s :=
      massign_length k v s.map (mem_mkeys_of_mfind k w s.map hk)
    rw [hsz]
    exact hmax' ▸ hinv'.bound
  | none =>
    by_cases hfull : s.maxSize ≤ s.map.length
    · obtain ⟨ek, w, hc, hw⟩ :=
        candidate_of_full P Inv hL s hinv' (hmax' ▸ hcap) hfull
      rw [cPut_evict P k v ek s hk hfull hc] at hput
      obtain rfl := Option.some.inj hput
      have h1 : cEraseKey P ek s = cEraseEntry P ek w s :=
        cEraseKey_found P ek w s hw
      have habs : mfind k (cEraseEntry P ek w s).map = none :=
        mfind_merase_of_absent k ek s.map hk
      have hmap1 : (cInsert P k v (cEraseEntry P ek w s)).map
          = (k, v) :: (cEraseEntry P ek w s).map :=
        memplace_of_absent k v _ habs
      have hlen := merase_length ek w s.map hw
      have hb := hinv'.bound
      constructor
      · rw [h1]
        show (cInsert P k v (cEraseEntry P ek w s)).map.length ≤ cap
        rw [hmap1]
        show (cEraseEntry P ek w s).map.length + 1 ≤ cap
        show (merase ek s.map).length + 1 ≤ cap
        omega
      · intro _
        refine ⟨rfl, ?_⟩
        show s.map.length = cap
        omega
    · rw [cPut_room P k v s hk (Nat.lt_of_not_le hfull)] at hput
      obtain rfl := Option.some.inj hput
      have hmap1 : (cInsert P k v s).map = (k, v) :: s.map :=
        memplace_of_absent k v s.map hk
      constructor
      · show (cInsert P k v s).map.length ≤ cap
        rw [hmap1]
        show s.map.length + 1 ≤ cap
        have hroom : s.map.length < s.maxSize := Nat.lt_of_not_le hfull
        omega
      · intro hne
        exact absurd rfl hne

/-- Witness for C2 at a concrete input: two `Put`s on a fresh capacity-2
FIFO cache. -/
theorem C2_capacity_invariant_witness :
    (0 ≤ cSize (⟨[(2, 6), (1, 5)], [2, 1], 2, []⟩ : CacheState (List Nat)) ∧
      cSize (⟨[(2, 6), (1, 5)], [2, 1], 2, []⟩ : CacheState (List Nat)) ≤ 2) ∧
    (⟨[(2, 6), (1, 5)], [2, 1], 2, []⟩ : CacheState (List Nat)).maxSize = 2 ∧
    (∀ k v s', cPut FIFOPolicyOps k v ⟨[(2, 6), (1, 5)], [2, 1], 2, []⟩
        = some s' →
      cSize s' ≤ 2 ∧
      (s'.hookLog ≠ [] →
        mfind k [(2, 6), (1, 5)] = none ∧
        cSize (⟨[(2, 6), (1, 5)], [2, 1], 2, []⟩ : CacheState (List Nat))
          = 2)) :=
  C2_capacity_invariant FIFOPolicyOps List.Nodup fifo_lawful []
    List.nodup_nil rfl 2 (by decide) [Op.put 1 5, Op.put 2 6]
    ⟨[(2, 6), (1, 5)], [2, 1], 2, []⟩ (by decide)

/-- C8: `ReplacementCandidate()` fails (returns `none`, modelling the
"empty policy" throw) exactly when the policy tracks no keys — shown
for all three list-backed policies — and this failure is unreachable
through the cache's public operations: from a freshly constructed cache
with positive capacity, every operation sequence runs to a defined
state (`Put` never hits the `none` branch, the model's only failure
path). -/
theorem C8_empty_policy_unreachable {σ : Type} (P : PolicyOps σ)
    (Inv : σ → Prop) (hL : LawfulPolicy P Inv) (p0 : σ) (hp0i : Inv p0)
    (hp0k : P.pKeys p0 = []) (cap : Nat) (hcap : 0 < cap) (ops : List Op) :
    (∀ l : List Nat,
      (LRUPolicyOps.pCandidate l = none ↔ LRUPolicyOps.pKeys l = []) ∧
      (FIFOPolicyOps.pCandidate l = none ↔ FIFOPolicyOps.pKeys l = []) ∧
      (LIFOPolicyOps.pCandidate l = none ↔ LIFOPolicyOps.pKeys l = [])) ∧
    ∃ s, runOps P ops (cInit p0 cap) = some s := by
  constructor
  · intro l
    exact ⟨backOf_eq_none_iff l, backOf_eq_none_iff l, head?_eq_none_iff l⟩
  · obtain ⟨s', h', _, _⟩ := run_preserve P Inv hL ops (cInit p0 cap)
      (cacheInv_init P Inv p0 cap hp0i hp0k) hcap
    exact ⟨s', h'⟩

/-- Witness for C8 at a concrete input: a capacity-1 LIFO cache and an
operation sequence that forces an eviction, a removal, a miss and a
clear. -/
theorem C8_empty_policy_unreachable_witness :
    (∀ l : List Nat,
      (LRUPolicyOps.pCandidate l = none ↔ LRUPolicyOps.pKeys l = []) ∧
      (FIFOPolicyOps.pCandidate l = none ↔ FIFOPolicyOps.pKeys l = []) ∧
      (LIFOPolicyOps.pCandidate l = none ↔ LIFOPolicyOps.pKeys l = [])) ∧
    ∃ s, runOps LIFOPolicyOps
      [Op.put 0 1, Op.put 2 3, Op.get 9, Op.remove 2, Op.clear, Op.put 4 5]
      (cInit [] 1) = some s :=
  C8_empty_policy_unreachable LIFOPolicyOps List.Nodup lifo_lawful []
    List.nodup_nil rfl 1 (by decide)
    [Op.put 0 1, Op.put 2 3, Op.get 9, Op.remove 2, Op.clear, Op.put 4 5]

/-- C4: `Clear()` never invokes the erase hook and removes every key
from both the policy and the map (`Size()` becomes 0, capacity
unchanged), while each capacity eviction inside `Put` and each
successful `Remove(key)` invokes the erase hook exactly once (the log
grows by exactly one entry), with the key and the value current at the
moment of removal. -/
theorem C4_clear_silent_hook_exact {σ : Type} (P : PolicyOps σ)
    (Inv : σ → Prop) (hL : LawfulPolicy P Inv) (s : CacheState σ)
    (hinv : CacheInv P Inv s) :
    ((cClear P s).hookLog = s.hookLog ∧ (cClear P s).map = [] ∧
      cSize (cClear P s) = 0 ∧ (cClear P s).maxSize = s.maxSize ∧
      P.pKeys (cClear P s).policy = []) ∧
    (∀ k v, mfind k s.map = none → s.maxSize ≤ s.map.length →
      0 < s.maxSize →
      ∃ ek w,
        P.pCandidate s.policy = some ek ∧ mfind ek s.map = some w ∧
        cPut P k v s = some (cInsert P k v (cEraseEntry P ek w s)) ∧
        (cInsert P k v (cEraseEntry P ek w s)).hookLog
          = s.hookLog ++ [(ek, w)] ∧
        (cInsert P k v (cEraseEntry P ek w s)).hookLog.length
          = s.hookLog.length + 1) ∧
    (∀ k w, mfind k s.map = some w →
      (cRemove P k s).2 = true ∧
      (cRemove P k s).1.hookLog = s.hookLog ++ [(k, w)] ∧
      (cRemove P k s).1.hookLog.length = s.hookLog.length + 1) := by
  refine ⟨⟨rfl, rfl, rfl, rfl, (clear_preserve P Inv hL s hinv).2⟩, ?_, ?_⟩
  · intro k v hk hfull hcap
    obtain ⟨ek, w, hc, hw⟩ := candidate_of_full P Inv hL s hinv hcap hfull
    have h1 : cEraseKey P ek s = cEraseEntry P ek w s :=
      cEraseKey_found P ek w s hw
    refine ⟨ek, w, hc, hw, ?_, rfl, ?_⟩
    · rw [cPut_evict P k v ek s hk hfull hc, h1]
    · show (s.hookLog ++ [(ek, w)]).length = s.hookLog.length + 1
      simp
  · intro k w hk
    rw [cRemove_found P k w s hk]
    refine ⟨rfl, rfl, ?_⟩
    show (s.hookLog ++ [(k, w)]).length = s.hookLog.length + 1
    simp

/-- Witness for C4 at a concrete input: a full capacity-2 FIFO cache
holding keys 0 and 1. -/
theorem C4_clear_silent_hook_exact_witness :
    ((cClear FIFOPolicyOps ⟨[(1, 11), (0, 10)], [1, 0], 2, []⟩).hookLog
        = [] ∧
      (cClear FIFOPolicyOps ⟨[(1, 11), (0, 10)], [1, 0], 2, []⟩).map = [] ∧
      cSize (cClear FIFOPolicyOps ⟨[(1, 11), (0, 10)], [1, 0], 2, []⟩)
        = 0 ∧
      (cClear FIFOPolicyOps ⟨[(1, 11), (0, 10)], [1, 0], 2, []⟩).maxSize
        = 2 ∧
      FIFOPolicyOps.pKeys
        (cClear FIFOPolicyOps ⟨[(1, 11), (0, 10)], [1, 0], 2, []⟩).policy
        = []) ∧
    (∀ k v, mfind k [(1, 11), (0, 10)] = none →
      (2 : Nat) ≤ [(1, 11), (0, 10)].length → (0 : Nat) < 2 →
      ∃ ek w,
        FIFOPolicyOps.pCandidate [1, 0] = some ek ∧
        mfind ek [(1, 11), (0, 10)] = some w ∧
        cPut FIFOPolicyOps k v ⟨[(1, 11), (0, 10)], [1, 0], 2, []⟩
          = some (cInsert FIFOPolicyOps k v
              (cEraseEntry FIFOPolicyOps ek w
                ⟨[(1, 11), (0, 10)], [1, 0], 2, []⟩)) ∧
        (cInsert FIFOPolicyOps k v
            (cEraseEntry FIFOPolicyOps ek w
              ⟨[(1, 11), (0, 10)], [1, 0], 2, []⟩)).hookLog
          = [] ++ [(ek, w)] ∧
        (cInsert FIFOPolicyOps k v
            (cEraseEntry FIFOPolicyOps ek w
              ⟨[(1, 11), (0, 10)], [1, 0], 2, []⟩)).hookLog.length
          = ([] : List (Nat × Nat)).length + 1) ∧
    (∀ k w, mfind k [(1, 11), (0, 10)] = some w →
      (cRemove FIFOPolicyOps k ⟨[(1, 11), (0, 10)], [1, 0], 2, []⟩).2
        = true ∧
      (cRemove FIFOPolicyOps k
          ⟨[(1, 11), (0, 10)], [1, 0], 2, []⟩).1.hookLog
        = [] ++ [(k, w)] ∧
      (cRemove FIFOPolicyOps k
          ⟨[(1, 11), (0, 10)], [1, 0], 2, []⟩).1.hookLog.length
        = ([] : List (Nat × Nat)).length + 1) :=
  C4_clear_silent_hook_exact FIFOPolicyOps List.Nodup fifo_lawful
    ⟨[(1, 11), (0, 10)], [1, 0], 2, []⟩
    ⟨List.Perm.refl _, by decide, by decide, by decide⟩

/-! FIFO-specific lemmas: `Touch` is a no-op, so `TryGet` leaves the
whole cache state unchanged. -/

theorem fifo_tryGet_id (k : Nat) (s : CacheState (List Nat)) :
    stepOp FIFOPolicyOps (Op.tryGet k) s = some s := by
  show some (cTryGet FIFOPolicyOps k s).1 = some s
  cases h : mfind k s.map with
  | some v =>
    rw [cTryGet_hit _ k v s h]
    rfl
  | none => rw [cTryGet_miss _ k s h]

theorem fifo_tryGets_id : ∀ (ts : List Op) (s : CacheState (List Nat)),
    (∀ o ∈ ts, ∃ k, o = Op.tryGet k) → runOps FIFOPolicyOps ts s = some s
  | [], _, _ => rfl
  | o :: t, s, h => by
    obtain ⟨k, rfl⟩ := h o (List.mem_cons_self o t)
    have hstep := fifo_tryGet_id k s
    simp only [runOps, hstep]
    exact fifo_tryGets_id t s (fun o ho => h o (List.mem_cons_of_mem _ ho))

theorem runOps_append {σ : Type} (P : PolicyOps σ) :
    ∀ (l1 l2 : List Op) (s : CacheState σ),
      runOps P (l1 ++ l2) s = (runOps P l1 s).bind (fun s' => runOps P l2 s')
  | [], l2, s => rfl
  | o :: t, l2, s => by
    simp only [List.cons_append, runOps]
    cases h : stepOp P o s with
    | none => rfl
    | some s1 => exact runOps_append P t l2 s1

/-- C6: with the FIFO policy and capacity 3, after inserting distinct
keys A=0, B=1, C=2 and then any sequence of `TryGet`s on those (all of
which hit, and none of which perturbs FIFO state), inserting new key
D=3 evicts exactly A (the first inserted key): afterwards B, C, D are
present, A is absent, and the hook fired exactly once, for A. -/
theorem C6_fifo_ignores_touch (ts : List Op)
    (hts : ∀ o ∈ ts, o = Op.tryGet 0 ∨ o = Op.tryGet 1 ∨ o = Op.tryGet 2) :
    (runOps FIFOPolicyOps
      ([Op.put 0 10, Op.put 1 11, Op.put 2 12] ++ ts ++ [Op.put 3 13])
      (cInit [] 3)).map
      (fun s => (cCached 0 s, cCached 1 s, cCached 2 s, cCached 3 s,
        s.hookLog)) =
      some (false, true, true, true, [(0, 10)]) := by
  have h3 : runOps FIFOPolicyOps [Op.put 0 10, Op.put 1 11, Op.put 2 12]
      (cInit [] 3) =
      some ⟨[(2, 12), (1, 11), (0, 10)], [2, 1, 0], 3, []⟩ := by decide
  have hts' : ∀ o ∈ ts, ∃ k, o = Op.tryGet k := by
    intro o ho
    rcases hts o ho with h | h | h
    · exact ⟨0, h⟩
    · exact ⟨1, h⟩
    · exact ⟨2, h⟩
  have hmid := fifo_tryGets_id ts
    ⟨[(2, 12), (1, 11), (0, 10)], [2, 1, 0], 3, []⟩ hts'
  rw [runOps_append, runOps_append, h3]
  show ((runOps FIFOPolicyOps ts
      ⟨[(2, 12), (1, 11), (0, 10)], [2, 1, 0], 3, []⟩).bind
    (fun s' => runOps FIFOPolicyOps [Op.put 3 13] s')).map
      (fun s => (cCached 0 s, cCached 1 s, cCached 2 s, cCached 3 s,
        s.hookLog)) =
    some (false, true, true, true, [(0, 10)])
  rw [hmid]
  rfl

/-- Witness for C6 at a concrete input: one hit `TryGet` on A before
inserting D. -/
theorem C6_fifo_ignores_touch_witness :
    (runOps FIFOPolicyOps
      ([Op.put 0 10, Op.put 1 11, Op.put 2 12] ++ [Op.tryGet 0] ++
        [Op.put 3 13])
      (cInit [] 3)).map
      (fun s => (cCached 0 s, cCached 1 s, cCached 2 s, cCached 3 s,
        s.hookLog)) =
      some (false, true, true, true, [(0, 10)]) :=
  C6_fifo_ignores_touch [Op.tryGet 0] (by decide)

/-- C7: for a key K already present (with stored value w), `Put(K, V1)`
then `Put(K, V2)` both take the update path, leave `Size()` unchanged,
and afterwards `Get(K)` returns V2; under the LRU policy the update
counts as a touch, so whenever some other key is present, K is not the
next replacement candidate immediately after the update. -/
theorem C7_update_in_place_lru (s : CacheState (List Nat))
    (hinv : CacheInv LRUPolicyOps List.Nodup s) (K V1 V2 w : Nat)
    (hK : mfind K s.map = some w) :
    ∃ s1 s2,
      cPut LRUPolicyOps K V1 s = some s1 ∧
      cPut LRUPolicyOps K V2 s1 = some s2 ∧
      cSize s2 = cSize s ∧
      (cGet LRUPolicyOps K s2).2 = Except.ok V2 ∧
      (∀ j, j ≠ K → j ∈ mkeys s.map →
        LRUPolicyOps.pCandidate s2.policy ≠ some K) := by
  have hKmem : K ∈ mkeys s.map := mem_mkeys_of_mfind K w s.map hK
  have h1find : mfind K (cUpdate LRUPolicyOps K V1 s).map = some V1 :=
    mfind_massign_self K V1 s.map
  have hs1mem : K ∈ mkeys (cUpdate LRUPolicyOps K V1 s).map :=
    mem_mkeys_of_mfind K V1 _ h1find
  have h2find : mfind K
      (cUpdate LRUPolicyOps K V2 (cUpdate LRUPolicyOps K V1 s)).map
      = some V2 :=
    mfind_massign_self K V2 (cUpdate LRUPolicyOps K V1 s).map
  have hKp : K ∈ s.policy := hinv.agree.mem_iff.mpr hKmem
  have hp1 : (cUpdate LRUPolicyOps K V1 s).policy = K :: s.policy.erase K := by
    show LRUPolicyOps.pTouch K s.policy = K :: s.policy.erase K
    simp [LRUPolicyOps, hKp]
  have hp2 : (cUpdate LRUPolicyOps K V2
      (cUpdate LRUPolicyOps K V1 s)).policy = K :: s.policy.erase K := by
    show LRUPolicyOps.pTouch K (cUpdate LRUPolicyOps K V1 s).policy
      = K :: s.policy.erase K
    rw [hp1]
    simp [LRUPolicyOps, List.erase_cons_head]
  refine ⟨cUpdate LRUPolicyOps K V1 s,
    cUpdate LRUPolicyOps K V2 (cUpdate LRUPolicyOps K V1 s),
    cPut_found LRUPolicyOps K V1 w s hK,
    cPut_found LRUPolicyOps K V2 V1 (cUpdate LRUPolicyOps K V1 s) h1find,
    ?_, ?_, ?_⟩
  · show (massign K V2 (cUpdate LRUPolicyOps K V1 s).map).length
      = s.map.length
    rw [massign_length K V2 _ hs1mem]
    exact massign_length K V1 s.map hKmem
  · rw [cGet_hit LRUPolicyOps K V2 _ h2find]
  · intro j hjK hjmem heq
    have hje : j ∈ s.policy.erase K :=
      (List.mem_erase_of_ne hjK).mpr (hinv.agree.mem_iff.mpr hjmem)
    have hne : s.policy.erase K ≠ [] := List.ne_nil_of_mem hje
    rw [hp2] at heq
    have heq' : backOf (K :: s.policy.erase K) = some K := heq
    rw [backOf_cons_of_ne_nil K _ hne] at heq'
    exact hinv.pinv.not_mem_erase (backOf_mem _ K heq')

/-- Witness for C7 at a concrete input: a capacity-2 LRU cache holding
keys 0 and 1; key 1 is updated twice. -/
theorem C7_update_in_place_lru_witness :
    ∃ s1 s2,
      cPut LRUPolicyOps 1 5 ⟨[(1, 11), (0, 10)], [1, 0], 2, []⟩
        = some s1 ∧
      cPut LRUPolicyOps 1 6 s1 = some s2 ∧
      cSize s2 = cSize
        (⟨[(1, 11), (0, 10)], [1, 0], 2, []⟩ : CacheState (List Nat)) ∧
      (cGet LRUPolicyOps 1 s2).2 = Except.ok 6 ∧
      (∀ j, j ≠ 1 → j ∈ mkeys [(1, 11), (0, 10)] →
        LRUPolicyOps.pCandidate s2.policy ≠ some 1) :=
  C7_update_in_place_lru ⟨[(1, 11), (0, 10)], [1, 0], 2, []⟩
    ⟨List.Perm.refl _, by decide, by decide, by decide⟩ 1 5 6 11 rfl
